import Mathlib

/-!
Verification of the MNREGA social-audit scraper (`scripts/scraper_1.py`).

Python strings are modelled as `List Char`; the Python string operations the
script uses (`str.strip`, `str.split(sep, maxsplit)`, `str.rsplit(sep, 1)`,
`pathlib.Path.stem`, `str.lower`) are embedded as functions on `List Char`.
The browser-driven parts (Selenium calls) are modelled by their observable
effect on the data the script manipulates: option dictionaries become
association lists of (value, label) pairs, and the success or failure of a
UI interaction becomes a boolean outcome supplied as input.
-/

namespace Scraper

/-- Python `val.strip()`: drop leading and trailing whitespace. -/
def stripChars (l : List Char) : List Char :=
  ((l.dropWhile Char.isWhitespace).reverse.dropWhile Char.isWhitespace).reverse

/-- The per-character test `c.isalnum() or c in ['_', '-', '.']` shared by
`clean_value` (line 58) and `_save_webpage` (line 186). -/
def isSafeChar (c : Char) : Bool :=
  c.isAlphanum || c = '_' || c = '-' || c = '.'

/-- One character of the sanitisation comprehension:
`c if c.isalnum() or c in ['_', '-', '.'] else "_"`. -/
def cleanChar (c : Char) : Char :=
  if isSafeChar c then c else '_'

/-- `clean_value` (scraper_1.py lines 56-58):
`"".join(c if c.isalnum() or c in ['_', '-', '.'] else "_" for c in val.strip())`. -/
def clean_value (s : List Char) : List Char :=
  (stripChars s).map cleanChar

theorem isSafeChar_cleanChar (c : Char) : isSafeChar (cleanChar c) = true := by
  unfold cleanChar
  by_cases h : isSafeChar c = true
  · simp [h]
  · simp [h]
    decide

theorem cleanChar_of_safe {c : Char} (h : isSafeChar c = true) : cleanChar c = c := by
  simp [cleanChar, h]

theorem cleanChar_idem (c : Char) : cleanChar (cleanChar c) = cleanChar c :=
  cleanChar_of_safe (isSafeChar_cleanChar c)

theorem not_whitespace_of_safe {c : Char} (h : isSafeChar c = true) :
    c.isWhitespace = false := by
  by_contra hw
  have hw' : c.isWhitespace = true := by
    cases hws : c.isWhitespace
    · exact absurd hws hw
    · rfl
  have hmem : ((c = ' ' ∨ c = '\t') ∨ c = '\r') ∨ c = '\n' := by
    simpa [Char.isWhitespace, Bool.or_eq_true, decide_eq_true_eq] using hw'
  rcases hmem with ((h1 | h1) | h1) | h1 <;> subst h1 <;> exact absurd h (by decide)

theorem dropWhile_eq_self_of_not {p : Char → Bool} :
    ∀ (l : List Char), (∀ c ∈ l, p c = false) → l.dropWhile p = l := by
  intro l h
  cases l with
  | nil => rfl
  | cons a t =>
    have ha : p a = false := h a (List.mem_cons_self a t)
    simp [List.dropWhile, ha]

theorem stripChars_eq_self {l : List Char}
    (h : ∀ c ∈ l, c.isWhitespace = false) : stripChars l = l := by
  unfold stripChars
  rw [dropWhile_eq_self_of_not l h]
  rw [dropWhile_eq_self_of_not l.reverse (by intro c hc; exact h c (List.mem_reverse.mp hc))]
  exact List.reverse_reverse l

theorem mem_clean_value_safe {s : List Char} {c : Char} (hc : c ∈ clean_value s) :
    isSafeChar c = true := by
  unfold clean_value at hc
  rcases List.mem_map.mp hc with ⟨a, _, rfl⟩
  exact isSafeChar_cleanChar a

/-- **C5**: `clean_value` is idempotent, and every character of its output is
alphanumeric or one of underscore, hyphen, dot. -/
theorem clean_value_idempotent_and_safe (s : List Char) :
    clean_value (clean_value s) = clean_value s ∧
    ∀ c ∈ clean_value s, (c.isAlphanum = true ∨ c = '_' ∨ c = '-' ∨ c = '.') := by
  constructor
  · unfold clean_value
    rw [show stripChars ((stripChars s).map cleanChar) = (stripChars s).map cleanChar from
      stripChars_eq_self (by
        intro c hc
        exact not_whitespace_of_safe (mem_clean_value_safe hc))]
    rw [List.map_map]
    apply List.map_congr_left
    intro a _
    exact cleanChar_idem a
  · intro c hc
    have h := mem_clean_value_safe hc
    unfold isSafeChar at h
    have h' : ((c.isAlphanum = true ∨ c = '_') ∨ c = '-') ∨ c = '.' := by
      simpa [Bool.or_eq_true, decide_eq_true_eq] using h
    tauto

/-- Witness for C5 at a concrete string containing a space and a slash. -/
theorem clean_value_idempotent_and_safe_witness :
    clean_value (clean_value (' ' :: 'a' :: '/' :: 'b' :: [])) =
      clean_value (' ' :: 'a' :: '/' :: 'b' :: []) :=
  (clean_value_idempotent_and_safe (' ' :: 'a' :: '/' :: 'b' :: [])).1

/-- Python `s.split(sep, maxsplit)` for a one-character separator: split on
each occurrence of `sep`, at most `maxsplit` times, the remainder kept whole
in the last field. -/
def splitMax (sep : Char) : Nat → List Char → List (List Char)
  | _, [] => [[]]
  | 0, c :: rest => [c :: rest]
  | n+1, c :: rest =>
    if c = sep then [] :: splitMax sep n rest
    else
      let r := splitMax sep (n+1) rest
      (c :: r.headI) :: r.tail

/-- Python `s.rsplit(sep, 1)`: split once at the last occurrence of `sep`;
`none` models the `ValueError` raised when `sep` does not occur. -/
def rsplitOnce (sep : Char) (l : List Char) : Option (List Char × List Char) :=
  match l.reverse.dropWhile (fun c => !(c = sep)) with
  | [] => none
  | _ :: baseRev =>
      some (baseRev.reverse, (l.reverse.takeWhile (fun c => !(c = sep))).reverse)

/-- `pathlib.Path(...).stem`: the final component with its last suffix
removed; a dot that is leading or trailing does not count as a suffix. -/
def stem (l : List Char) : List Char :=
  match rsplitOnce '.' l with
  | none => l
  | some (base, ext) => if base = [] ∨ ext = [] then l else base

/-- The characters of the literal `".html.gz"` appended by `_save_webpage`. -/
def htmlGzSuffix : List Char :=
  '.' :: 'h' :: 't' :: 'm' :: 'l' :: '.' :: 'g' :: 'z' :: []

/-- Six values joined by underscores, as in the `_save_webpage` f-string. -/
def joined6 (f1 f2 f3 f4 f5 f6 : List Char) : List Char :=
  f1 ++ '_' :: (f2 ++ '_' :: (f3 ++ '_' :: (f4 ++ '_' :: (f5 ++ '_' :: f6))))

/-- The filename built by `_save_webpage` (lines 182-186): the seven raw field
values joined by underscores, the `.html.gz` suffix appended, and the whole
string sanitised character by character (no `strip` here, unlike
`clean_value`). -/
def save_webpage_filename
    (f1 f2 f3 f4 f5 f6 f7 : List Char) : List Char :=
  (joined6 f1 f2 f3 f4 f5 (f6 ++ '_' :: (f7 ++ htmlGzSuffix))).map cleanChar

/-- A combination key: the six cleaned field values
(state, district, block, panchayat, year, date). -/
abbrev Key :=
  List Char × List Char × List Char × List Char × List Char × List Char

set_option synthInstance.maxSize 512 in
instance keyDecEq : DecidableEq Key :=
  inferInstanceAs
    (DecidableEq (List Char × List Char × List Char × List Char × List Char × List Char))

/-- The per-file step of `_load_processed_set` (lines 79-106): take the stem,
split off the trailing option segment at the last underscore, split the rest
on underscores into at most six fields, require exactly six, and clean each.
`none` models the two `continue` branches (no underscore / wrong field
count). -/
def parse_saved_filename (name : List Char) : Option Key :=
  match rsplitOnce '_' (stem name) with
  | none => none
  | some (base, _) =>
    let parts := splitMax '_' 5 base
    if parts.length = 6 then
      some (clean_value parts.headI,
            clean_value (parts.drop 1).headI,
            clean_value (parts.drop 2).headI,
            clean_value (parts.drop 3).headI,
            clean_value (parts.drop 4).headI,
            clean_value (parts.drop 5).headI)
    else none

/-- `_load_processed_set` (lines 60-109) applied to the list of saved-page
file names found in the output directory: the set of keys recovered, as the
list of successfully parsed filenames. -/
def load_processed_set (files : List (List Char)) : List Key :=
  files.filterMap parse_saved_filename

/-! Basic lemmas about the string primitives. -/

/-- Every character of a list is safe. -/
def allSafe (l : List Char) : Prop := ∀ c ∈ l, isSafeChar c = true

theorem allSafe_append {a b : List Char} (ha : allSafe a) (hb : allSafe b) :
    allSafe (a ++ b) := by
  intro c hc
  rcases List.mem_append.mp hc with h | h
  · exact ha c h
  · exact hb c h

theorem allSafe_cons {c : Char} {l : List Char} (hc : isSafeChar c = true)
    (hl : allSafe l) : allSafe (c :: l) := by
  intro d hd
  rcases List.mem_cons.mp hd with h | h
  · exact h ▸ hc
  · exact hl d h

theorem allSafe_of_fixed {f : List Char} (h : clean_value f = f) : allSafe f := by
  intro c hc
  exact mem_clean_value_safe (h ▸ hc)

theorem map_cleanChar_id {l : List Char} (h : allSafe l) : l.map cleanChar = l := by
  induction l with
  | nil => rfl
  | cons a t ih =>
    have ha : isSafeChar a = true := h a (List.mem_cons_self a t)
    have ht : allSafe t := fun c hc => h c (List.mem_cons_of_mem a hc)
    simp [cleanChar_of_safe ha, ih ht]

theorem clean_value_of_allSafe {l : List Char} (h : allSafe l) :
    clean_value l = l := by
  unfold clean_value
  rw [stripChars_eq_self (fun c hc => not_whitespace_of_safe (h c hc))]
  exact map_cleanChar_id h

theorem takeWhile_append_of_all {p : Char → Bool} :
    ∀ (xs ys : List Char), (∀ c ∈ xs, p c = true) →
      (xs ++ ys).takeWhile p = xs ++ ys.takeWhile p := by
  intro xs ys h
  induction xs with
  | nil => rfl
  | cons a t ih =>
    have ha : p a = true := h a (List.mem_cons_self a t)
    simp only [List.cons_append, List.takeWhile_cons, ha, if_true]
    rw [ih (fun c hc => h c (List.mem_cons_of_mem a hc))]

theorem dropWhile_append_of_all {p : Char → Bool} :
    ∀ (xs ys : List Char), (∀ c ∈ xs, p c = true) →
      (xs ++ ys).dropWhile p = ys.dropWhile p := by
  intro xs ys h
  induction xs with
  | nil => rfl
  | cons a t ih =>
    have ha : p a = true := h a (List.mem_cons_self a t)
    simp only [List.cons_append, List.dropWhile_cons, ha, if_true]
    exact ih (fun c hc => h c (List.mem_cons_of_mem a hc))

/-- `rsplit(sep, 1)` splits exactly at the last occurrence of `sep`. -/
theorem rsplitOnce_append {sep : Char} {a b : List Char} (hb : sep ∉ b) :
    rsplitOnce sep (a ++ sep :: b) = some (a, b) := by
  have hball : ∀ c ∈ b.reverse, (!(c = sep)) = true := by
    intro c hc
    have : c ∈ b := List.mem_reverse.mp hc
    simp only [Bool.not_eq_true']
    exact decide_eq_false (fun h => hb (h ▸ this))
  have hrev : (a ++ sep :: b).reverse = b.reverse ++ sep :: a.reverse := by
    simp
  unfold rsplitOnce
  rw [hrev]
  rw [dropWhile_append_of_all b.reverse (sep :: a.reverse) hball]
  rw [takeWhile_append_of_all b.reverse (sep :: a.reverse) hball]
  simp [List.dropWhile, List.takeWhile]

/-- `split(sep, 0)` never splits. -/
theorem splitMax_zero (sep : Char) (l : List Char) : splitMax sep 0 l = [l] := by
  cases l <;> rfl

/-- With fuel left, `split` peels off a separator-free leading field. -/
theorem splitMax_append {sep : Char} {a : List Char} (ha : sep ∉ a)
    (n : Nat) (rest : List Char) :
    splitMax sep (n+1) (a ++ sep :: rest) = a :: splitMax sep n rest := by
  induction a with
  | nil => simp [splitMax]
  | cons c t ih =>
    have hc : ¬ (c = sep) := fun h => ha (h ▸ List.mem_cons_self c t)
    have ht : sep ∉ t := fun h => ha (List.mem_cons_of_mem c h)
    simp only [List.cons_append, splitMax, if_neg hc]
    rw [List.append_eq, ih ht]
    rfl

/-- A separator-free string is returned whole. -/
theorem splitMax_of_not_mem {sep : Char} :
    ∀ {l : List Char}, sep ∉ l → ∀ (n : Nat), splitMax sep n l = [l] := by
  intro l
  induction l with
  | nil => intro _ n; cases n <;> rfl
  | cons c t ih =>
    intro h n
    have hc : ¬ (c = sep) := fun hh => h (hh ▸ List.mem_cons_self c t)
    have ht : sep ∉ t := fun hh => h (List.mem_cons_of_mem c hh)
    cases n with
    | zero => rfl
    | succ m =>
      simp only [splitMax, if_neg hc, ih ht (m+1)]
      rfl

theorem allSafe_htmlGzSuffix : allSafe htmlGzSuffix := by
  unfold allSafe htmlGzSuffix
  decide

theorem allSafe_joined6 {f1 f2 f3 f4 f5 f6 : List Char}
    (s1 : allSafe f1) (s2 : allSafe f2) (s3 : allSafe f3) (s4 : allSafe f4)
    (s5 : allSafe f5) (s6 : allSafe f6) :
    allSafe (joined6 f1 f2 f3 f4 f5 f6) := by
  have hu : isSafeChar '_' = true := by decide
  exact allSafe_append s1 (allSafe_cons hu
    (allSafe_append s2 (allSafe_cons hu
      (allSafe_append s3 (allSafe_cons hu
        (allSafe_append s4 (allSafe_cons hu
          (allSafe_append s5 (allSafe_cons hu s6)))))))))

/-- `joined6` distributes over a trailing append of the last field. -/
theorem joined6_append (f1 f2 f3 f4 f5 x y : List Char) :
    joined6 f1 f2 f3 f4 f5 (x ++ y) = joined6 f1 f2 f3 f4 f5 x ++ y := by
  unfold joined6
  simp [List.append_assoc]

/-- The `.html` part of the suffix, left attached to the option segment by
`Path.stem` (which only removes the final `.gz`). -/
def htmlPart : List Char := '.' :: 'h' :: 't' :: 'm' :: 'l' :: []

theorem htmlGzSuffix_eq : htmlGzSuffix = htmlPart ++ '.' :: ('g' :: 'z' :: []) := rfl

theorem stem_of_gz {u : List Char} (hu : u ≠ []) :
    stem (u ++ '.' :: ('g' :: 'z' :: [])) = u := by
  unfold stem
  rw [rsplitOnce_append (by decide)]
  simp [hu]

/-- On six underscore-free leading fields, `split("_", 5)` recovers the
fields exactly. -/
theorem splitMax_joined6 {f1 f2 f3 f4 f5 : List Char} (f6 : List Char)
    (n1 : '_' ∉ f1) (n2 : '_' ∉ f2) (n3 : '_' ∉ f3) (n4 : '_' ∉ f4)
    (n5 : '_' ∉ f5) :
    splitMax '_' 5 (joined6 f1 f2 f3 f4 f5 f6) = [f1, f2, f3, f4, f5, f6] := by
  unfold joined6
  rw [splitMax_append n1 4, splitMax_append n2 3, splitMax_append n3 2,
    splitMax_append n4 1, splitMax_append n5 0, splitMax_zero]

/-- Core round-trip lemma: saving then parsing recovers the first six fields
when they are sanitised and fields 1-5 and 7 are underscore-free. -/
theorem parse_save_roundtrip (f1 f2 f3 f4 f5 f6 f7 : List Char)
    (h1 : clean_value f1 = f1) (h2 : clean_value f2 = f2)
    (h3 : clean_value f3 = f3) (h4 : clean_value f4 = f4)
    (h5 : clean_value f5 = f5) (h6 : clean_value f6 = f6)
    (h7 : clean_value f7 = f7)
    (n1 : '_' ∉ f1) (n2 : '_' ∉ f2) (n3 : '_' ∉ f3) (n4 : '_' ∉ f4)
    (n5 : '_' ∉ f5) (n7 : '_' ∉ f7) :
    parse_saved_filename (save_webpage_filename f1 f2 f3 f4 f5 f6 f7) =
      some (f1, f2, f3, f4, f5, f6) := by
  have hu : isSafeChar '_' = true := by decide
  have hsafe : allSafe (joined6 f1 f2 f3 f4 f5 (f6 ++ '_' :: (f7 ++ htmlGzSuffix))) :=
    allSafe_joined6 (allSafe_of_fixed h1) (allSafe_of_fixed h2)
      (allSafe_of_fixed h3) (allSafe_of_fixed h4) (allSafe_of_fixed h5)
      (allSafe_append (allSafe_of_fixed h6) (allSafe_cons hu
        (allSafe_append (allSafe_of_fixed h7) allSafe_htmlGzSuffix)))
  unfold save_webpage_filename
  rw [map_cleanChar_id hsafe]
  have hsplit :
      f6 ++ '_' :: (f7 ++ htmlGzSuffix) =
        (f6 ++ '_' :: (f7 ++ htmlPart)) ++ '.' :: ('g' :: 'z' :: []) := by
    rw [htmlGzSuffix_eq]
    simp [List.append_assoc]
  rw [hsplit, joined6_append]
  unfold parse_saved_filename
  rw [stem_of_gz (by simp [joined6])]
  have hsplit2 :
      f6 ++ '_' :: (f7 ++ htmlPart) = f6 ++ ('_' :: (f7 ++ htmlPart)) := rfl
  rw [hsplit2, joined6_append]
  have hb : '_' ∉ f7 ++ htmlPart := by
    intro hmem
    rcases List.mem_append.mp hmem with h | h
    · exact n7 h
    · exact absurd h (by decide)
  rw [rsplitOnce_append hb]
  dsimp only
  rw [splitMax_joined6 f6 n1 n2 n3 n4 n5]
  simp only [List.length_cons, List.length_nil]
  rw [if_pos trivial]
  simp only [List.headI, List.drop, List.tail]
  rw [h1, h2, h3, h4, h5, h6]

/-- **C1** (amended): the filename round-trip holds for seven sanitised field
values provided the first five fields and the option field contain no
underscore; the loader then reconstructs the first six fields exactly. -/
theorem filename_roundtrip (f1 f2 f3 f4 f5 f6 f7 : List Char)
    (h1 : clean_value f1 = f1) (h2 : clean_value f2 = f2)
    (h3 : clean_value f3 = f3) (h4 : clean_value f4 = f4)
    (h5 : clean_value f5 = f5) (h6 : clean_value f6 = f6)
    (h7 : clean_value f7 = f7)
    (n1 : '_' ∉ f1) (n2 : '_' ∉ f2) (n3 : '_' ∉ f3) (n4 : '_' ∉ f4)
    (n5 : '_' ∉ f5) (n7 : '_' ∉ f7) :
    parse_saved_filename (save_webpage_filename f1 f2 f3 f4 f5 f6 f7) =
      some (f1, f2, f3, f4, f5, f6) :=
  parse_save_roundtrip f1 f2 f3 f4 f5 f6 f7 h1 h2 h3 h4 h5 h6 h7 n1 n2 n3 n4 n5 n7

/-- Witness for the amended C1 at the concrete fields
Meghalaya / East-Khasi-Hills / Block1 / GP1 / 2020-21 / 15-01-2021 / All. -/
theorem filename_roundtrip_witness :
    parse_saved_filename (save_webpage_filename
      "Meghalaya".toList "East-Khasi-Hills".toList "Block1".toList
      "GP1".toList "2020-21".toList "15-01-2021".toList "All".toList) =
      some ("Meghalaya".toList, "East-Khasi-Hills".toList, "Block1".toList,
        "GP1".toList, "2020-21".toList, "15-01-2021".toList) :=
  filename_roundtrip _ _ _ _ _ _ _
    (by decide) (by decide) (by decide) (by decide) (by decide) (by decide)
    (by decide) (by decide) (by decide) (by decide) (by decide) (by decide)
    (by decide)

/-- **C1 counterexample**: with the sanitised option value `x_y` the loader
folds the stray `x` into the date field, so the round-trip as claimed fails
even though all seven fields are fixed points of `clean_value`. -/
theorem filename_roundtrip_counterexample :
    (clean_value ('x' :: '_' :: 'y' :: []) = ('x' :: '_' :: 'y' :: []) ∧
      clean_value ('a' :: []) = ('a' :: []) ∧
      clean_value ('b' :: []) = ('b' :: []) ∧
      clean_value ('c' :: []) = ('c' :: []) ∧
      clean_value ('d' :: []) = ('d' :: []) ∧
      clean_value ('e' :: []) = ('e' :: []) ∧
      clean_value ('f' :: []) = ('f' :: [])) ∧
    parse_saved_filename (save_webpage_filename
        ('a' :: []) ('b' :: []) ('c' :: []) ('d' :: []) ('e' :: []) ('f' :: [])
        ('x' :: '_' :: 'y' :: [])) ≠
      some (('a' :: []), ('b' :: []), ('c' :: []), ('d' :: []), ('e' :: []),
        ('f' :: [])) := by
  constructor
  · exact ⟨by decide, by decide, by decide, by decide, by decide, by decide, by decide⟩
  · intro hcontr
    have hval : parse_saved_filename (save_webpage_filename
        ('a' :: []) ('b' :: []) ('c' :: []) ('d' :: []) ('e' :: []) ('f' :: [])
        ('x' :: '_' :: 'y' :: [])) =
        some (('a' :: []), ('b' :: []), ('c' :: []), ('d' :: []), ('e' :: []),
          ('f' :: '_' :: 'x' :: [])) := by rfl
    rw [hval] at hcontr
    have h2 := Option.some.inj hcontr
    simp at h2

/-! The unbounded split and the separator-rejoin, used to state what
`split("_", 5)` does with surplus segments (claim C10). -/

/-- Python `s.split(sep)` with no maxsplit: all separator-delimited segments. -/
def splitAll (sep : Char) : List Char → List (List Char)
  | [] => [[]]
  | c :: rest =>
    if c = sep then [] :: splitAll sep rest
    else
      let r := splitAll sep rest
      (c :: r.headI) :: r.tail

/-- Rejoin segments with the separator (inverse of splitting). -/
def joinSep (sep : Char) : List (List Char) → List Char
  | [] => []
  | [x] => x
  | x :: y :: rest => x ++ sep :: joinSep sep (y :: rest)

theorem splitAll_ne_nil (sep : Char) : ∀ (l : List Char), splitAll sep l ≠ [] := by
  intro l
  cases l with
  | nil => simp [splitAll]
  | cons c rest =>
    by_cases h : c = sep <;> simp [splitAll, h]

theorem splitMax_ne_nil (sep : Char) : ∀ (n : Nat) (l : List Char), splitMax sep n l ≠ [] := by
  intro n l
  cases l with
  | nil => simp [splitMax]
  | cons c rest =>
    cases n with
    | zero => simp [splitMax]
    | succ m => by_cases h : c = sep <;> simp [splitMax, h]

theorem joinSep_cons_head (sep c : Char) (h : List Char) :
    ∀ (t : List (List Char)), joinSep sep ((c :: h) :: t) = c :: joinSep sep (h :: t) := by
  intro t
  cases t with
  | nil => rfl
  | cons y t' => simp [joinSep]

/-- Rejoining the full split recovers the string. -/
theorem joinSep_splitAll (sep : Char) : ∀ (l : List Char), joinSep sep (splitAll sep l) = l := by
  intro l
  induction l with
  | nil => rfl
  | cons c rest ih =>
    obtain ⟨x, t, hx⟩ : ∃ x t, splitAll sep rest = x :: t := by
      cases hs : splitAll sep rest with
      | nil => exact absurd hs (splitAll_ne_nil sep rest)
      | cons x t => exact ⟨x, t, rfl⟩
    rw [hx] at ih
    by_cases h : c = sep
    · simp only [splitAll, if_pos h]
      rw [hx]
      calc joinSep sep ([] :: x :: t) = sep :: joinSep sep (x :: t) := rfl
        _ = sep :: rest := by rw [ih]
        _ = c :: rest := by rw [h]
    · simp only [splitAll, if_neg h]
      rw [hx]
      simp only [List.headI, List.tail]
      rw [joinSep_cons_head, ih]

/-- The number of fields produced by `split(sep, n)`. -/
theorem splitMax_length (sep : Char) :
    ∀ (l : List Char) (n : Nat), (splitMax sep n l).length = min n (l.count sep) + 1 := by
  intro l
  induction l with
  | nil => intro n; simp [splitMax]
  | cons c rest ih =>
    intro n
    cases n with
    | zero => simp [splitMax]
    | succ m =>
      by_cases h : c = sep
      · have hcount : (c :: rest).count sep = rest.count sep + 1 := by
          simp [List.count_cons, h]
        simp only [splitMax, if_pos h, List.length_cons, ih m, hcount]
        omega
      · have hcount : (c :: rest).count sep = rest.count sep := by
          simp [List.count_cons, h]
        simp only [splitMax, if_neg h, List.length_cons, hcount]
        obtain ⟨x, t, hx⟩ : ∃ x t, splitMax sep (m+1) rest = x :: t := by
          cases hs : splitMax sep (m+1) rest with
          | nil => exact absurd hs (splitMax_ne_nil sep (m+1) rest)
          | cons x t => exact ⟨x, t, rfl⟩
        have := ih (m+1)
        rw [hx] at this ⊢
        simp only [List.headI, List.tail, List.length_cons] at this ⊢
        omega

/-- With fuel `n` not exceeding the number of separators, `split(sep, n)`
returns the first `n` full segments and folds the surplus, separators
included, into the final field. -/
theorem splitMax_fold (sep : Char) :
    ∀ (l : List Char) (n : Nat), n ≤ l.count sep →
      splitMax sep n l =
        (splitAll sep l).take n ++ [joinSep sep ((splitAll sep l).drop n)] := by
  intro l
  induction l with
  | nil =>
    intro n hn
    simp only [List.count_nil, Nat.le_zero] at hn
    subst hn
    simp [splitMax, splitAll, joinSep]
  | cons c rest ih =>
    intro n hn
    cases n with
    | zero =>
      simp only [List.take_zero, List.drop_zero, List.nil_append]
      rw [joinSep_splitAll]
      exact splitMax_zero sep (c :: rest)
    | succ m =>
      by_cases h : c = sep
      · have hm : m ≤ rest.count sep := by
          have hcount : (c :: rest).count sep = rest.count sep + 1 := by
            simp [List.count_cons, h]
          omega
        simp only [splitMax, splitAll, if_pos h, List.take_succ_cons, List.drop_succ_cons]
        rw [ih m hm]
        rfl
      · have hcount : (c :: rest).count sep = rest.count sep := by
          simp [List.count_cons, h]
        have hm : m + 1 ≤ rest.count sep := by omega
        simp only [splitMax, splitAll, if_neg h]
        rw [ih (m+1) hm]
        obtain ⟨x, t, hx⟩ : ∃ x t, splitAll sep rest = x :: t := by
          cases hs : splitAll sep rest with
          | nil => exact absurd hs (splitAll_ne_nil sep rest)
          | cons x t => exact ⟨x, t, rfl⟩
        rw [hx]
        simp only [List.take_succ_cons, List.drop_succ_cons, List.headI, List.tail,
          List.cons_append]

/-- **C10**: `split("_", 5)` yields at most six fields, exactly six precisely
when the base has at least five underscores (six or more segments), and in
that case the fields are the first five full segments with all surplus
segments folded, underscores included, into the sixth (date) field. -/
theorem loader_split_field_count (base : List Char) :
    (splitMax '_' 5 base).length ≤ 6 ∧
    ((splitMax '_' 5 base).length = 6 ↔ 5 ≤ base.count '_') ∧
    (5 ≤ base.count '_' →
      splitMax '_' 5 base =
        (splitAll '_' base).take 5 ++ [joinSep '_' ((splitAll '_' base).drop 5)]) := by
  refine ⟨?_, ?_, ?_⟩
  · rw [splitMax_length]
    omega
  · rw [splitMax_length]
    omega
  · intro h
    exact splitMax_fold '_' base 5 h

/-- Witness for C10 on a base with seven segments: the surplus segment stays
inside the sixth field. -/
theorem loader_split_field_count_witness :
    splitMax '_' 5 "a_b_c_d_e_f_g".toList =
      (splitAll '_' "a_b_c_d_e_f_g".toList).take 5 ++
        [joinSep '_' ((splitAll '_' "a_b_c_d_e_f_g".toList).drop 5)] :=
  (loader_split_field_count "a_b_c_d_e_f_g".toList).2.2 (by decide)

/-! The dropdown inspector `_get_options_dict` and the leaf option choice. -/

/-- Python `str.lower` (on the ASCII range the site uses). -/
def lowerStr (s : List Char) : List Char := s.map Char.toLower

/-- The placeholder test of `_get_options_dict` (line 137):
`not value or value.lower() in ["", "select", "choose", "0"]`.
The test inspects the option's (already stripped) value, not its label. -/
def isDefaultValue (value : List Char) : Bool :=
  value.isEmpty || lowerStr value == [] || lowerStr value == "select".toList ||
    lowerStr value == "choose".toList || lowerStr value == "0".toList

/-- The placeholder test as the spec words it ("values empty, or labeled
select/choose, or literal 0"): empty value, or a label that lower-cases to
"select" or "choose", or the literal value "0". Modelled from the spec for
comparison with `isDefaultValue`; the code has no label-based test. -/
def isDefaultEntrySpec (text value : List Char) : Bool :=
  value.isEmpty || lowerStr text == "select".toList ||
    lowerStr text == "choose".toList || value == "0".toList

/-- Python dict assignment `d[k] = v` on an insertion-ordered association
list: overwrite in place when the key exists, else append. -/
def dictInsert (d : List (List Char × List Char)) (k v : List Char) :
    List (List Char × List Char) :=
  if (d.map Prod.fst).contains k then
    d.map (fun kv => if kv.1 == k then (k, v) else kv)
  else d ++ [(k, v)]

/-- One iteration of the option loop in `_get_options_dict` (lines 134-139):
strip the text and the value, drop placeholder entries when
`exclude_default`, otherwise store label under value. -/
def optionsStep (excludeDefault : Bool)
    (d : List (List Char × List Char)) (tv : List Char × List Char) :
    List (List Char × List Char) :=
  let text := stripChars tv.1
  let value := stripChars tv.2
  if excludeDefault && isDefaultValue value then d
  else dictInsert d value text

/-- `_get_options_dict` (lines 116-146) over the control's option elements,
each given as a (text, value) pair as read from the DOM. `none` models the
`No options found` exception raised when the dict is empty after
filtering. -/
def get_options_dict (excludeDefault : Bool)
    (options : List (List Char × List Char)) :
    Option (List (List Char × List Char)) :=
  let d := options.foldl (optionsStep excludeDefault) []
  if d.isEmpty then none else some d

theorem dictInsert_ne_nil (d : List (List Char × List Char)) (k v : List Char) :
    dictInsert d k v ≠ [] := by
  unfold dictInsert
  by_cases h : (d.map Prod.fst).contains k = true
  · rw [if_pos h]
    intro hmap
    rw [List.map_eq_nil_iff] at hmap
    subst hmap
    simp [List.contains] at h
  · rw [if_neg h]
    simp

theorem mem_keys_dictInsert {d : List (List Char × List Char)} {k v m : List Char} :
    m ∈ (dictInsert d k v).map Prod.fst ↔ m ∈ d.map Prod.fst ∨ m = k := by
  unfold dictInsert
  by_cases h : (d.map Prod.fst).contains k = true
  · rw [if_pos h]
    have hk : k ∈ d.map Prod.fst := by
      simpa [List.contains, List.elem_iff] using h
    rw [List.map_map]
    constructor
    · intro hm
      rcases List.mem_map.mp hm with ⟨kv, hkv, hfst⟩
      by_cases he : kv.1 == k
      · right
        simp [Function.comp, he] at hfst
        exact hfst.symm
      · left
        simp [Function.comp, he] at hfst
        exact hfst ▸ List.mem_map_of_mem Prod.fst hkv
    · intro hm
      rcases hm with hm | hm
      · rcases List.mem_map.mp hm with ⟨kv, hkv, hfst⟩
        apply List.mem_map.mpr
        refine ⟨kv, hkv, ?_⟩
        by_cases he : kv.1 == k
        · simp only [Function.comp, he, if_true]
          have : kv.1 = k := by simpa using he
          rw [← hfst, this]
        · simp only [Function.comp, he]
          simpa using hfst
      · subst hm
        rcases List.mem_map.mp hk with ⟨kv, hkv, hfst⟩
        apply List.mem_map.mpr
        refine ⟨kv, hkv, ?_⟩
        have he : kv.1 == m := by simpa using hfst
        simp [Function.comp, he]
  · rw [if_neg h]
    rw [List.map_append]
    simp [or_comm, eq_comm]

/-- Key membership across the whole fold of `_get_options_dict` with
`exclude_default` enabled. -/
theorem mem_keys_optionsFold :
    ∀ (opts : List (List Char × List Char)) (d0 : List (List Char × List Char))
      (k : List Char),
      k ∈ ((opts.foldl (optionsStep true) d0).map Prod.fst) ↔
        k ∈ d0.map Prod.fst ∨
          (isDefaultValue k = false ∧ ∃ tv ∈ opts, stripChars tv.2 = k) := by
  intro opts
  induction opts with
  | nil => intro d0 k; simp
  | cons tv rest ih =>
    intro d0 k
    rw [List.foldl_cons, ih]
    unfold optionsStep
    by_cases hdef : isDefaultValue (stripChars tv.2) = true
    · rw [if_pos (by simp [hdef])]
      constructor
      · intro hm
        rcases hm with hm | hm
        · exact Or.inl hm
        · exact Or.inr ⟨hm.1, hm.2.imp (fun tv' h => ⟨List.mem_cons_of_mem tv h.1, h.2⟩)⟩
      · intro hm
        rcases hm with hm | ⟨hk, tv', htv', hval⟩
        · exact Or.inl hm
        · rcases List.mem_cons.mp htv' with he | he
          · subst he
            rw [hval, hk] at hdef
            exact absurd hdef (by decide)
          · exact Or.inr ⟨hk, tv', he, hval⟩
    · rw [if_neg (by simp [hdef])]
      rw [mem_keys_dictInsert]
      constructor
      · intro hm
        rcases hm with (hm | hm) | hm
        · exact Or.inl hm
        · subst hm
          exact Or.inr ⟨by simpa using hdef, tv, List.mem_cons_self tv rest, rfl⟩
        · exact Or.inr ⟨hm.1, hm.2.imp (fun tv' h => ⟨List.mem_cons_of_mem tv h.1, h.2⟩)⟩
      · intro hm
        rcases hm with hm | ⟨hk, tv', htv', hval⟩
        · exact Or.inl (Or.inl hm)
        · rcases List.mem_cons.mp htv' with he | he
          · exact Or.inl (Or.inr (he ▸ hval).symm)
          · exact Or.inr ⟨hk, tv', he, hval⟩

/-- Emptiness of the fold: everything was filtered out. -/
theorem optionsFold_eq_nil :
    ∀ (opts : List (List Char × List Char)) (d0 : List (List Char × List Char)),
      opts.foldl (optionsStep true) d0 = [] ↔
        d0 = [] ∧ ∀ tv ∈ opts, isDefaultValue (stripChars tv.2) = true := by
  intro opts
  induction opts with
  | nil => intro d0; simp
  | cons tv rest ih =>
    intro d0
    rw [List.foldl_cons, ih]
    unfold optionsStep
    by_cases hdef : isDefaultValue (stripChars tv.2) = true
    · rw [if_pos (by simp [hdef])]
      constructor
      · rintro ⟨h0, hall⟩
        exact ⟨h0, fun tv' htv' => by
          rcases List.mem_cons.mp htv' with he | he
          · exact he ▸ hdef
          · exact hall tv' he⟩
      · rintro ⟨h0, hall⟩
        exact ⟨h0, fun tv' htv' => hall tv' (List.mem_cons_of_mem tv htv')⟩
    · rw [if_neg (by simp [hdef])]
      constructor
      · rintro ⟨h0, _⟩
        exact absurd h0 (dictInsert_ne_nil d0 _ _)
      · rintro ⟨_, hall⟩
        exact absurd (hall tv (List.mem_cons_self tv rest)) hdef

/-- **C9** (amended): with `exclude_default` enabled, `_get_options_dict`
raises exactly when every option's stripped value is a placeholder (empty,
or lower-casing to "select", "choose" or "0"), and otherwise the returned
mapping's keys are exactly the non-placeholder stripped values: the filter
inspects the option value, not its label. -/
theorem get_options_dict_spec (opts : List (List Char × List Char)) :
    (get_options_dict true opts = none ↔
      ∀ tv ∈ opts, isDefaultValue (stripChars tv.2) = true) ∧
    (∀ d, get_options_dict true opts = some d →
      ∀ k, (k ∈ d.map Prod.fst ↔
        isDefaultValue k = false ∧ ∃ tv ∈ opts, stripChars tv.2 = k)) := by
  constructor
  · unfold get_options_dict
    by_cases h : (opts.foldl (optionsStep true) []).isEmpty
    · rw [if_pos h]
      have := (optionsFold_eq_nil opts []).mp (by simpa [List.isEmpty_iff] using h)
      simp only [true_iff]
      exact this.2
    · rw [if_neg h]
      have hne := h
      rw [List.isEmpty_iff] at hne
      constructor
      · intro hcontr
        exact absurd hcontr (by simp)
      · intro hall
        exact absurd ((optionsFold_eq_nil opts []).mpr ⟨rfl, hall⟩) hne
  · intro d hd k
    unfold get_options_dict at hd
    by_cases h : (opts.foldl (optionsStep true) []).isEmpty
    · rw [if_pos h] at hd
      exact absurd hd (by simp)
    · rw [if_neg h] at hd
      have hd' : opts.foldl (optionsStep true) [] = d := by
        simpa using hd
      rw [← hd', mem_keys_optionsFold opts [] k]
      simp

/-- Witness for the amended C9: a placeholder value "0" is dropped, a real
district entry is kept, and its key is exactly the stripped value "1". -/
theorem get_options_dict_spec_witness :
    "1".toList ∈ (("1".toList, "D1".toList) :: []).map Prod.fst ↔
      isDefaultValue "1".toList = false ∧
        ∃ tv ∈ [("Select".toList, "0".toList), ("D1".toList, "1".toList)],
          stripChars tv.2 = "1".toList :=
  (get_options_dict_spec [("Select".toList, "0".toList), ("D1".toList, "1".toList)]).2
    (("1".toList, "D1".toList) :: []) (by rfl) "1".toList

/-- **C9 counterexample**: an option labelled "select" but carrying the real
value "1" is kept by the code (the filter looks at the value), while the
claim as stated would omit it as a placeholder and raise on the then-empty
mapping. -/
theorem get_options_dict_counterexample :
    isDefaultEntrySpec "select".toList "1".toList = true ∧
    get_options_dict true [("select".toList, "1".toList)] =
      some [("1".toList, "select".toList)] := by
  constructor
  · decide
  · rfl

/-! The leaf option choice (iterate_form lines 280-290). -/

/-- The "all"-finding loop (lines 281-284): iterate over the dict items and
stop at the first entry whose label lower-cases to "all". Entries are
(value, label) pairs in dict order. -/
def findAllOption : List (List Char × List Char) → Option (List Char × List Char)
  | [] => none
  | kv :: rest =>
    if lowerStr kv.2 == "all".toList then some kv else findAllOption rest

/-- The option-value choice at the leaf (lines 280-290): the first entry
labelled "all" case-insensitively if any, else the first entry of the dict,
else nothing (the combination is skipped with a warning). -/
def choose_option_value (d : List (List Char × List Char)) :
    Option (List Char × List Char) :=
  match findAllOption d with
  | some kv => some kv
  | none => d.head?

theorem findAllOption_eq_find (d : List (List Char × List Char)) :
    findAllOption d = d.find? (fun kv => lowerStr kv.2 == "all".toList) := by
  induction d with
  | nil => rfl
  | cons kv rest ih =>
    by_cases h : (lowerStr kv.2 == "all".toList) = true
    · simp only [findAllOption, List.find?]
      rw [h]
      rw [if_pos rfl]
    · simp only [findAllOption, List.find?]
      rw [if_neg h, ih]
      rw [Bool.not_eq_true] at h
      rw [h]

/-- **C6**: the driver picks the first entry whose label lower-cases to
"all", else the first entry in enumeration order, else skips; in particular
on (value, label) entries ("1", "All"), ("2", "Some") it picks value "1",
and on ("2", "Partial") alone it picks value "2". -/
theorem choose_option_value_spec :
    (∀ (d : List (List Char × List Char)) kv,
      d.find? (fun kv => lowerStr kv.2 == "all".toList) = some kv →
        choose_option_value d = some kv) ∧
    (∀ (d : List (List Char × List Char)),
      d.find? (fun kv => lowerStr kv.2 == "all".toList) = none →
        choose_option_value d = d.head?) ∧
    choose_option_value [] = none ∧
    choose_option_value [("1".toList, "All".toList), ("2".toList, "Some".toList)] =
      some ("1".toList, "All".toList) ∧
    choose_option_value [("2".toList, "Partial".toList)] =
      some ("2".toList, "Partial".toList) := by
  refine ⟨?_, ?_, rfl, by rfl, by rfl⟩
  · intro d kv h
    unfold choose_option_value
    rw [findAllOption_eq_find, h]
  · intro d h
    unfold choose_option_value
    rw [findAllOption_eq_find, h]

/-- Witness for C6: the "all"-labelled entry is chosen even when listed
second. -/
theorem choose_option_value_spec_witness :
    choose_option_value [("9".toList, "Some".toList), ("3".toList, "ALL".toList)] =
      some ("3".toList, "ALL".toList) :=
  choose_option_value_spec.1
    [("9".toList, "Some".toList), ("3".toList, "ALL".toList)]
    ("3".toList, "ALL".toList) (by rfl)

/-! The dropdown selector `_select_option` (lines 148-177). -/

/-- What one attempt of `_select_option` can observe: the select succeeds, a
recognised transient failure occurs (TimeoutException or
ElementClickInterceptedException, answered by the scroll-and-click fallback),
or some other exception occurs. -/
inductive AttemptOutcome
  | success
  | transient
  | other
deriving DecidableEq

/-- Fallback maneuvers executed over the first `n` attempts: the scripted
scroll-and-click (lines 163-168) runs once per recognised transient
failure. -/
def countTransient (outcome : Nat → AttemptOutcome) : Nat → Nat
  | 0 => 0
  | n+1 => countTransient outcome n + (if outcome n = .transient then 1 else 0)

/-- The retry loop of `_select_option` (lines 153-177), driven by the
outcome of each attempt: `attempt` is the current loop index, `fuel` the
number of loop iterations still allowed (`max_retries - attempt`). Returns
the boolean result together with the number of attempts made and the number
of scripted fallback maneuvers executed. -/
def selectLoop (outcome : Nat → AttemptOutcome) (maxRetries : Nat) :
    Nat → Nat → Bool × Nat × Nat
  | 0, attempt => (false, attempt, countTransient outcome attempt)
  | fuel+1, attempt =>
    match outcome attempt with
    | .success => (true, attempt + 1, countTransient outcome (attempt + 1))
    | .transient => selectLoop outcome maxRetries fuel (attempt + 1)
    | .other =>
      if attempt = maxRetries - 1 then (false, attempt + 1, countTransient outcome (attempt + 1))
      else selectLoop outcome maxRetries fuel (attempt + 1)

/-- `_select_option(element_id, value, max_retries=1)`: run the loop from
attempt 0 with `max_retries` iterations of fuel. -/
def select_option (outcome : Nat → AttemptOutcome) (maxRetries : Nat) :
    Bool × Nat × Nat :=
  selectLoop outcome maxRetries maxRetries 0

/-- The default `max_retries` of `_select_option` (line 148). -/
def select_option_max_retries : Nat := 1

theorem selectLoop_attempts_le (outcome : Nat → AttemptOutcome) (maxRetries : Nat) :
    ∀ (fuel attempt : Nat),
      (selectLoop outcome maxRetries fuel attempt).2.1 ≤ attempt + fuel := by
  intro fuel
  induction fuel with
  | zero => intro attempt; simp [selectLoop]
  | succ m ih =>
    intro attempt
    cases h : outcome attempt with
    | success =>
      simp only [selectLoop, h]
      omega
    | transient =>
      simp only [selectLoop, h]
      have := ih (attempt + 1)
      omega
    | other =>
      simp only [selectLoop, h]
      by_cases he : attempt = maxRetries - 1
      · rw [if_pos he]
        dsimp only
        omega
      · rw [if_neg he]
        have := ih (attempt + 1)
        omega

theorem selectLoop_false (outcome : Nat → AttemptOutcome) (maxRetries : Nat) :
    ∀ (fuel attempt : Nat), (∀ i, i < attempt + fuel → outcome i ≠ .success) →
      (selectLoop outcome maxRetries fuel attempt).1 = false := by
  intro fuel
  induction fuel with
  | zero => intro attempt _; rfl
  | succ m ih =>
    intro attempt hno
    cases h : outcome attempt with
    | success => exact absurd h (hno attempt (by omega))
    | transient =>
      simp only [selectLoop, h]
      exact ih (attempt + 1) (fun i hi => hno i (by omega))
    | other =>
      simp only [selectLoop, h]
      by_cases he : attempt = maxRetries - 1
      · rw [if_pos he]
      · rw [if_neg he]
        exact ih (attempt + 1) (fun i hi => hno i (by omega))

theorem selectLoop_fallbacks (outcome : Nat → AttemptOutcome) (maxRetries : Nat) :
    ∀ (fuel attempt : Nat),
      (selectLoop outcome maxRetries fuel attempt).2.2 =
        countTransient outcome (selectLoop outcome maxRetries fuel attempt).2.1 := by
  intro fuel
  induction fuel with
  | zero => intro attempt; rfl
  | succ m ih =>
    intro attempt
    cases h : outcome attempt with
    | success => simp only [selectLoop, h]
    | transient =>
      simp only [selectLoop, h]
      exact ih (attempt + 1)
    | other =>
      simp only [selectLoop, h]
      by_cases he : attempt = maxRetries - 1
      · rw [if_pos he]
      · rw [if_neg he]
        exact ih (attempt + 1)

theorem countTransient_le (outcome : Nat → AttemptOutcome) :
    ∀ n, countTransient outcome n ≤ n := by
  intro n
  induction n with
  | zero => exact Nat.le_refl 0
  | succ m ih =>
    unfold countTransient
    by_cases h : outcome m = .transient
    · rw [if_pos h]
      omega
    · rw [if_neg h]
      omega

/-- **C8**: `_select_option` is a total function of its attempt outcomes and
always yields a boolean; it makes at most `max_retries` attempts (default
1); it performs at most one scripted fallback maneuver per attempt made; and
when no attempt succeeds it returns False instead of looping or raising. -/
theorem select_option_spec :
    (∀ (outcome : Nat → AttemptOutcome) (maxRetries : Nat),
      (select_option outcome maxRetries).2.1 ≤ maxRetries) ∧
    (∀ (outcome : Nat → AttemptOutcome) (maxRetries : Nat),
      (select_option outcome maxRetries).2.2 ≤ (select_option outcome maxRetries).2.1) ∧
    (∀ (outcome : Nat → AttemptOutcome) (maxRetries : Nat),
      (∀ i, i < maxRetries → outcome i ≠ .success) →
        (select_option outcome maxRetries).1 = false) ∧
    select_option_max_retries = 1 := by
  refine ⟨?_, ?_, ?_, rfl⟩
  · intro outcome maxRetries
    have := selectLoop_attempts_le outcome maxRetries maxRetries 0
    unfold select_option
    omega
  · intro outcome maxRetries
    unfold select_option
    rw [selectLoop_fallbacks]
    exact countTransient_le outcome _
  · intro outcome maxRetries hno
    unfold select_option
    exact selectLoop_false outcome maxRetries maxRetries 0 (fun i hi => hno i (by omega))

/-- Witness for C8: a transient failure on the single default attempt,
answered by the fallback, yields False. -/
theorem select_option_spec_witness :
    (select_option (fun _ => AttemptOutcome.transient) select_option_max_retries).1 = false :=
  select_option_spec.2.2.1 (fun _ => AttemptOutcome.transient)
    select_option_max_retries (by decide)

/-! The iteration driver `iterate_form` (lines 197-374), modelled at the
date/option leaf level. The enumeration produced by the cascading dropdowns
is supplied as data: each leaf carries the six raw dropdown values, whether
its date selection succeeded, the option dict read at the leaf, and the
outcome script of the `_select_option` calls on the option control. -/

/-- One leaf combination reached by the nested loops of `iterate_form`. -/
structure Leaf where
  state_val : List Char
  district_val : List Char
  block_val : List Char
  panchayat_val : List Char
  year_val : List Char
  date_val : List Char
  /-- whether `_select_option` on the date control returned True (line 270) -/
  dateOk : Bool
  /-- the option dict read at the leaf (line 275) -/
  optionDict : List (List Char × List Char)
  /-- outcome of the n-th `_select_option` call on the option control -/
  selectOk : Nat → Bool

/-- The combination key built at lines 293-300: the six cleaned raw values. -/
def leafKey (lf : Leaf) : Key :=
  (clean_value lf.state_val, clean_value lf.district_val, clean_value lf.block_val,
    clean_value lf.panchayat_val, clean_value lf.year_val, clean_value lf.date_val)

/-- The in-memory driver state touched by the leaf body: the processed set,
the number of `_save_webpage` calls, the number of result rows appended, and
the logged running counter `total_processed`. -/
structure DriverState where
  processed : List Key
  saves : Nat
  results : Nat
  totalProcessed : Nat
deriving DecidableEq

/-- `max_attempts` of the final-option retry loop (line 305). -/
def leaf_max_attempts : Nat := 1

/-- The final-option while-loop (lines 305-330): each iteration makes one
`_select_option` call on the option control; on failure it refreshes the
page, re-applies the five ancestor selections and the date, and retries only
while `attempts < max_attempts`. Returns success, the number of option
`_select_option` calls made, and the number of refresh-and-reselect
recoveries performed. -/
def optionAttemptLoop (ok : Nat → Bool) : Nat → Nat → Nat → Bool × Nat × Nat
  | 0, calls, refreshes => (false, calls, refreshes)
  | fuel+1, calls, refreshes =>
    if ok calls then (true, calls + 1, refreshes)
    else optionAttemptLoop ok fuel (calls + 1) (refreshes + 1)

/-- The retry loop as entered at line 306-308 with `attempts = 0`. -/
def leaf_option_attempt (ok : Nat → Bool) : Bool × Nat × Nat :=
  optionAttemptLoop ok leaf_max_attempts 0 0

/-- The body of the date loop for one leaf (lines 270-373). Returns the new
driver state and whether the success path was reached (in which case the
`break` at line 373 exits the date loop). The `continue` branches — date
selection failure, unreadable or empty option dict, key already processed,
exhausted option attempts — leave the state unchanged. -/
def processLeaf (st : DriverState) (lf : Leaf) : DriverState × Bool :=
  if lf.dateOk = false then (st, false)
  else
    match choose_option_value lf.optionDict with
    | none => (st, false)
    | some _ =>
      let key := leafKey lf
      if key ∈ st.processed then (st, false)
      else if (leaf_option_attempt lf.selectOk).1 then
        ({ processed := key :: st.processed,
           saves := st.saves + 1,
           results := st.results + 1,
           totalProcessed := st.totalProcessed + 1 }, true)
      else (st, false)

/-- The date loop (lines 269-373) over the dates of one year branch: `break`
on the first leaf whose success path is reached, `continue` otherwise. -/
def dateLoop (st : DriverState) : List Leaf → DriverState
  | [] => st
  | lf :: rest =>
    let r := processLeaf st lf
    if r.2 then r.1 else dateLoop r.1 rest

/-- The traversal above the date level: the outer loops supply one date list
per (state, district, block, panchayat, year) branch, and the driver folds
the date loop over them. -/
def driverRun (st : DriverState) (branches : List (List Leaf)) : DriverState :=
  branches.foldl dateLoop st

/-- **C2 counterexample**: when the first option selection fails, the driver
refreshes and re-applies the ancestor selections (one recovery), but the
while condition `attempts < max_attempts` with `max_attempts = 1` is then
false, so only one `_select_option` call is ever made on the option control:
no second selection attempt follows the recovery. -/
theorem option_retry_counterexample :
    leaf_option_attempt (fun _ => false) = (false, 1, 1) := rfl

/-- **C2** (amended): for every outcome script whose first option selection
fails, the leaf retry loop performs exactly one option-selection call and
one refresh-and-reselect recovery, then reports failure; the recovery is
never followed by a second option-selection attempt because
`max_attempts = 1`. -/
theorem option_retry_amended (ok : Nat → Bool) (h : ok 0 = false) :
    leaf_option_attempt ok = (false, 1, 1) := by
  unfold leaf_option_attempt leaf_max_attempts optionAttemptLoop
  rw [h]
  rfl

/-- Witness for the amended C2 with a script that would succeed on a second
call: the loop still stops after one call. -/
theorem option_retry_amended_witness :
    leaf_option_attempt (fun n => decide (0 < n)) = (false, 1, 1) :=
  option_retry_amended (fun n => decide (0 < n)) (by decide)

/-- The three possible effects of one leaf body: skip, or record the new
combination exactly once. -/
theorem processLeaf_cases (st : DriverState) (lf : Leaf) :
    processLeaf st lf = (st, false) ∨
      (processLeaf st lf =
        ({ processed := leafKey lf :: st.processed, saves := st.saves + 1,
           results := st.results + 1, totalProcessed := st.totalProcessed + 1 }, true) ∧
        leafKey lf ∉ st.processed) := by
  unfold processLeaf
  by_cases hd : lf.dateOk = false
  · rw [if_pos hd]
    exact Or.inl rfl
  · rw [if_neg hd]
    cases hc : choose_option_value lf.optionDict with
    | none => exact Or.inl rfl
    | some kv =>
      dsimp only
      by_cases hk : leafKey lf ∈ st.processed
      · rw [if_pos hk]
        exact Or.inl rfl
      · rw [if_neg hk]
        by_cases ho : (leaf_option_attempt lf.selectOk).1 = true
        · rw [if_pos ho]
          exact Or.inr ⟨rfl, hk⟩
        · rw [if_neg ho]
          exact Or.inl rfl

theorem processLeaf_subset (st : DriverState) (lf : Leaf) :
    st.processed ⊆ (processLeaf st lf).1.processed := by
  rcases processLeaf_cases st lf with h | ⟨h, _⟩
  · rw [h]
    exact fun k hk => hk
  · rw [h]
    exact fun k hk => List.mem_cons_of_mem _ hk

theorem dateLoop_subset :
    ∀ (dates : List Leaf) (st : DriverState),
      st.processed ⊆ (dateLoop st dates).processed := by
  intro dates
  induction dates with
  | nil => intro st; exact fun k hk => hk
  | cons lf rest ih =>
    intro st
    unfold dateLoop
    by_cases hb : (processLeaf st lf).2 = true
    · rw [if_pos hb]
      exact processLeaf_subset st lf
    · rw [if_neg hb]
      exact fun k hk => ih (processLeaf st lf).1 (processLeaf_subset st lf hk)

theorem driverRun_subset :
    ∀ (branches : List (List Leaf)) (st : DriverState),
      st.processed ⊆ (driverRun st branches).processed := by
  intro branches
  induction branches with
  | nil => intro st; exact fun k hk => hk
  | cons dates rest ih =>
    intro st
    unfold driverRun
    rw [List.foldl_cons]
    exact fun k hk => ih (dateLoop st dates) (dateLoop_subset dates st hk)

theorem processLeaf_skip {st : DriverState} {lf : Leaf}
    (h : leafKey lf ∈ st.processed) : processLeaf st lf = (st, false) := by
  rcases processLeaf_cases st lf with hc | ⟨_, hk⟩
  · exact hc
  · exact absurd h hk

theorem dateLoop_skip :
    ∀ (dates : List Leaf) (st : DriverState),
      (∀ lf ∈ dates, leafKey lf ∈ st.processed) → dateLoop st dates = st := by
  intro dates
  induction dates with
  | nil => intro st _; rfl
  | cons lf rest ih =>
    intro st hall
    unfold dateLoop
    rw [processLeaf_skip (hall lf (List.mem_cons_self lf rest))]
    exact ih st (fun lf' h => hall lf' (List.mem_cons_of_mem lf h))

theorem driverRun_skip :
    ∀ (branches : List (List Leaf)) (st : DriverState),
      (∀ lf ∈ branches.flatten, leafKey lf ∈ st.processed) → driverRun st branches = st := by
  intro branches
  induction branches with
  | nil => intro st _; rfl
  | cons dates rest ih =>
    intro st hall
    unfold driverRun
    rw [List.foldl_cons,
      dateLoop_skip dates st
        (fun lf h => hall lf (by rw [List.flatten_cons]; exact List.mem_append_left _ h))]
    exact ih st (fun lf h => hall lf (by rw [List.flatten_cons]; exact List.mem_append_right _ h))

/-- **C4**: the processed set only grows: every leaf body either leaves the
driver state unchanged or records the key exactly on success (and no key is
ever removed, across the whole traversal); consequently, a run in which
every reachable combination key is already processed changes nothing and in
particular performs zero page saves. -/
theorem processed_set_monotone :
    (∀ (st : DriverState) (lf : Leaf),
      processLeaf st lf = (st, false) ∨
        (processLeaf st lf =
          ({ processed := leafKey lf :: st.processed, saves := st.saves + 1,
             results := st.results + 1, totalProcessed := st.totalProcessed + 1 }, true) ∧
          leafKey lf ∉ st.processed)) ∧
    (∀ (st : DriverState) (branches : List (List Leaf)),
      st.processed ⊆ (driverRun st branches).processed) ∧
    (∀ (st : DriverState) (branches : List (List Leaf)),
      (∀ lf ∈ branches.flatten, leafKey lf ∈ st.processed) →
        driverRun st branches = st ∧ (driverRun st branches).saves = st.saves) := by
  refine ⟨processLeaf_cases, fun st branches => driverRun_subset branches st, ?_⟩
  intro st branches hall
  have h := driverRun_skip branches st hall
  exact ⟨h, by rw [h]⟩

/-- Witness for C4: with the single reachable key already processed, the
driver run is a no-op with zero saves. -/
theorem processed_set_monotone_witness :
    driverRun
        ⟨[leafKey ⟨"S".toList, "D".toList, "B".toList, "P".toList, "Y".toList,
          "d1".toList, true, [("1".toList, "All".toList)], fun _ => true⟩], 3, 4, 5⟩
        [[⟨"S".toList, "D".toList, "B".toList, "P".toList, "Y".toList,
          "d1".toList, true, [("1".toList, "All".toList)], fun _ => true⟩]] =
      ⟨[leafKey ⟨"S".toList, "D".toList, "B".toList, "P".toList, "Y".toList,
          "d1".toList, true, [("1".toList, "All".toList)], fun _ => true⟩], 3, 4, 5⟩ :=
  (processed_set_monotone.2.2 _ _ (by
    intro lf hlf
    rw [List.flatten_cons, List.flatten_nil, List.append_nil] at hlf
    rcases List.mem_cons.mp hlf with he | he
    · rw [he]
      exact List.mem_cons_self _ _
    · cases he)).1

/-- The success path of the leaf body: one save, one result row, one counter
increment, the key recorded. -/
theorem processLeaf_success {st : DriverState} {lf : Leaf} {kv : List Char × List Char}
    (hd : lf.dateOk = true) (hc : choose_option_value lf.optionDict = some kv)
    (hk : leafKey lf ∉ st.processed)
    (ho : (leaf_option_attempt lf.selectOk).1 = true) :
    processLeaf st lf =
      ({ processed := leafKey lf :: st.processed, saves := st.saves + 1,
         results := st.results + 1, totalProcessed := st.totalProcessed + 1 }, true) := by
  unfold processLeaf
  rw [if_neg (by simp [hd]), hc]
  dsimp only
  rw [if_neg hk, if_pos ho]

/-- **C7** (amended): on a successful leaf the driver saves the page, appends
a result row, records the key, increments the running counter — and then the
`break` at line 373 leaves the date loop, so the remaining sibling dates of
the current year are skipped rather than visited. -/
theorem leaf_success_spec (st : DriverState) (lf : Leaf) (rest : List Leaf)
    (kv : List Char × List Char)
    (hd : lf.dateOk = true) (hc : choose_option_value lf.optionDict = some kv)
    (hk : leafKey lf ∉ st.processed)
    (ho : (leaf_option_attempt lf.selectOk).1 = true) :
    dateLoop st (lf :: rest) =
      { processed := leafKey lf :: st.processed, saves := st.saves + 1,
        results := st.results + 1, totalProcessed := st.totalProcessed + 1 } := by
  unfold dateLoop
  rw [processLeaf_success hd hc hk ho]
  rfl

/-- Witness for the amended C7: a successful leaf updates all four state
components and ends the date loop even with another date pending. -/
theorem leaf_success_spec_witness :
    dateLoop ⟨[], 0, 0, 0⟩
        [⟨"S2".toList, "D2".toList, "B2".toList, "P2".toList, "Y2".toList,
          "dx".toList, true, [("7".toList, "All".toList)], fun _ => true⟩,
         ⟨"S2".toList, "D2".toList, "B2".toList, "P2".toList, "Y2".toList,
          "dy".toList, true, [("7".toList, "All".toList)], fun _ => true⟩] =
      { processed := [leafKey ⟨"S2".toList, "D2".toList, "B2".toList, "P2".toList,
          "Y2".toList, "dx".toList, true, [("7".toList, "All".toList)], fun _ => true⟩],
        saves := 1, results := 1, totalProcessed := 1 } :=
  leaf_success_spec _ _ _ ("7".toList, "All".toList) rfl (by rfl) (by decide) rfl

/-- **C7 counterexample**: two fresh, succeeding sibling dates; the driver
processes the first and the `break` skips the second, so only one save
happens and the second date's key is never recorded. -/
theorem leaf_success_counterexample :
    (dateLoop ⟨[], 0, 0, 0⟩
          [⟨"S".toList, "D".toList, "B".toList, "P".toList, "Y".toList,
            "d1".toList, true, [("1".toList, "All".toList)], fun _ => true⟩,
           ⟨"S".toList, "D".toList, "B".toList, "P".toList, "Y".toList,
            "d2".toList, true, [("1".toList, "All".toList)], fun _ => true⟩]).saves = 1 ∧
    leafKey ⟨"S".toList, "D".toList, "B".toList, "P".toList, "Y".toList,
        "d2".toList, true, [("1".toList, "All".toList)], fun _ => true⟩ ∉
      (dateLoop ⟨[], 0, 0, 0⟩
          [⟨"S".toList, "D".toList, "B".toList, "P".toList, "Y".toList,
            "d1".toList, true, [("1".toList, "All".toList)], fun _ => true⟩,
           ⟨"S".toList, "D".toList, "B".toList, "P".toList, "Y".toList,
            "d2".toList, true, [("1".toList, "All".toList)], fun _ => true⟩]).processed := by
  constructor
  · rfl
  · decide

/-! Resume correctness (claim C3): a directory of saved pages feeds
`_load_processed_set`. -/

/-- The seven raw field values of one saved page, as passed to
`_save_webpage` (lines 332-340). -/
structure SavedPage where
  state_val : List Char
  district_val : List Char
  block_val : List Char
  panchayat_val : List Char
  year_val : List Char
  date_val : List Char
  option_val : List Char

/-- The file the page was saved under. -/
def savedFilename (r : SavedPage) : List Char :=
  save_webpage_filename r.state_val r.district_val r.block_val r.panchayat_val
    r.year_val r.date_val r.option_val

/-- The combination key recorded for the page (lines 293-300). -/
def savedKey (r : SavedPage) : Key :=
  (clean_value r.state_val, clean_value r.district_val, clean_value r.block_val,
    clean_value r.panchayat_val, clean_value r.year_val, clean_value r.date_val)

/-- A row whose seven raw values are sanitised and whose fields 1-5 and 7
are underscore-free, so that its filename is unambiguous. -/
def GoodRow (r : SavedPage) : Prop :=
  (clean_value r.state_val = r.state_val ∧ clean_value r.district_val = r.district_val ∧
    clean_value r.block_val = r.block_val ∧ clean_value r.panchayat_val = r.panchayat_val ∧
    clean_value r.year_val = r.year_val ∧ clean_value r.date_val = r.date_val ∧
    clean_value r.option_val = r.option_val) ∧
  ('_' ∉ r.state_val ∧ '_' ∉ r.district_val ∧ '_' ∉ r.block_val ∧
    '_' ∉ r.panchayat_val ∧ '_' ∉ r.year_val ∧ '_' ∉ r.option_val)

/-- A malformed filename in the loader's sense: no underscore to rsplit on,
or a field count other than six after the option segment is removed. -/
def wrongFieldCountB (f : List Char) : Bool :=
  match rsplitOnce '_' (stem f) with
  | none => true
  | some (base, _) => (splitMax '_' 5 base).length != 6

theorem parse_none_of_wrong {f : List Char} (h : wrongFieldCountB f = true) :
    parse_saved_filename f = none := by
  unfold wrongFieldCountB at h
  unfold parse_saved_filename
  cases hr : rsplitOnce '_' (stem f) with
  | none => rfl
  | some p =>
    obtain ⟨base, rest⟩ := p
    rw [hr] at h
    dsimp only at h ⊢
    rw [if_neg (by simpa using h)]

theorem parse_savedFilename_of_good {r : SavedPage} (h : GoodRow r) :
    parse_saved_filename (savedFilename r) = some (savedKey r) := by
  obtain ⟨⟨h1, h2, h3, h4, h5, h6, h7⟩, n1, n2, n3, n4, n5, n7⟩ := h
  unfold savedFilename savedKey
  rw [parse_save_roundtrip _ _ _ _ _ _ _ h1 h2 h3 h4 h5 h6 h7 n1 n2 n3 n4 n5 n7]
  rw [h1, h2, h3, h4, h5, h6]

/-- **C3** (amended): for a directory holding exactly the files saved for
rows whose fields are sanitised and (outside the date field) underscore-free,
the loader recovers exactly the rows' keys; malformed filenames (wrong field
count) in the same directory contribute nothing and raise nothing; and the
concrete file `Meghalaya_East-Khasi-Hills_Block1_GP1_2020-21_15-01-2021_All.html.gz`
yields the expected key. -/
theorem load_processed_set_spec (rows : List SavedPage) (mal : List (List Char))
    (hrows : ∀ r ∈ rows, GoodRow r)
    (hmal : ∀ f ∈ mal, wrongFieldCountB f = true) :
    (∀ k : Key, k ∈ load_processed_set (rows.map savedFilename ++ mal) ↔
      ∃ r ∈ rows, savedKey r = k) ∧
    parse_saved_filename
        "Meghalaya_East-Khasi-Hills_Block1_GP1_2020-21_15-01-2021_All.html.gz".toList =
      some ("Meghalaya".toList, "East-Khasi-Hills".toList, "Block1".toList,
        "GP1".toList, "2020-21".toList, "15-01-2021".toList) := by
  constructor
  · intro k
    unfold load_processed_set
    rw [List.mem_filterMap]
    constructor
    · rintro ⟨f, hf, hparse⟩
      rcases List.mem_append.mp hf with hf | hf
      · rcases List.mem_map.mp hf with ⟨r, hr, rfl⟩
        refine ⟨r, hr, ?_⟩
        rw [parse_savedFilename_of_good (hrows r hr)] at hparse
        exact Option.some.inj hparse
      · rw [parse_none_of_wrong (hmal f hf)] at hparse
        cases hparse
    · rintro ⟨r, hr, rfl⟩
      exact ⟨savedFilename r,
        List.mem_append_left _ (List.mem_map_of_mem savedFilename hr),
        parse_savedFilename_of_good (hrows r hr)⟩
  · rfl

/-- Witness for the amended C3: one good row, one malformed file with a
single field; the row's key is in the loaded set. -/
theorem load_processed_set_spec_witness :
    savedKey ⟨"St".toList, "Di".toList, "Bl".toList, "Pa".toList,
        "2021-22".toList, "01-02-2021".toList, "Opt".toList⟩ ∈
      load_processed_set
        (([(⟨"St".toList, "Di".toList, "Bl".toList, "Pa".toList,
            "2021-22".toList, "01-02-2021".toList, "Opt".toList⟩ : SavedPage)].map
          savedFilename) ++ ["nofields.html.gz".toList]) ↔
      ∃ r ∈ [(⟨"St".toList, "Di".toList, "Bl".toList, "Pa".toList,
          "2021-22".toList, "01-02-2021".toList, "Opt".toList⟩ : SavedPage)],
        savedKey r = savedKey ⟨"St".toList, "Di".toList, "Bl".toList, "Pa".toList,
          "2021-22".toList, "01-02-2021".toList, "Opt".toList⟩ :=
  (load_processed_set_spec _ _
    (by
      intro r hr
      rw [List.mem_singleton] at hr
      subst hr
      unfold GoodRow
      decide)
    (by
      intro f hf
      rw [List.mem_singleton] at hf
      subst hf
      decide)).1 _

/-- **C3 counterexample**: a directory holding exactly the file saved for a
row whose state value cleans to `a_b` does not yield that row's key: the
embedded underscore shifts the loader's split, so the claimed exactness
fails. -/
theorem load_processed_set_counterexample :
    load_processed_set
        [savedFilename ⟨"a b".toList, "c".toList, "d".toList, "e".toList,
          "f".toList, "g".toList, "h".toList⟩] ≠
      [savedKey ⟨"a b".toList, "c".toList, "d".toList, "e".toList,
          "f".toList, "g".toList, "h".toList⟩] := by
  intro hcontr
  have hval : load_processed_set
      [savedFilename ⟨"a b".toList, "c".toList, "d".toList, "e".toList,
        "f".toList, "g".toList, "h".toList⟩] =
      [("a".toList, "b".toList, "c".toList, "d".toList, "e".toList,
        ('f' :: '_' :: 'g' :: []))] := by rfl
  rw [hval] at hcontr
  have h2 := List.head_eq_of_cons_eq hcontr
  simp [savedKey] at h2
  exact absurd h2.2.1 (by decide)

end Scraper
